import Mathlib

/-!
Shallow embedding of the greedy lab-session scheduler (`scheduler.py`):
the `RA` resource model with its construction-time Thursday blackout,
the `GreedyScheduler` state (schedule dictionary plus per-resource
counters), the hard-constraint checker `can_assign`, the two-phase
greedy assignment algorithm `schedule_greedy`, and the derived
statistics (`get_statistics`, `calculate_gaps`).

Modelling conventions: the availability grid is a list of boolean rows
(`1` in the source is `true` here); Python ints are `Int` (weekly caps
may be supplied non-positive) or `Nat` for counters that only grow from
zero; Python floats used for criticality and efficiency are `ℚ`; the
Python dicts keyed by `(day, slot)` are association lists preserving
insertion order, and the per-name stats dict is a total function from
names (Python would raise on a name never initialised, but every query
in the engine uses a name of a constructed resource).  Fallible
construction (`numpy` shape errors) is `Except String`.
-/

namespace Scheduler

/-- A resource: name, 5×6 availability grid (post-construction), weekly cap. -/
structure RA where
  name : String
  availability : List (List Bool)
  max_slots_per_week : Int
  deriving Repr, DecidableEq

/-- The all-available default grid used when no availability is supplied
(`np.ones((5, 6))`). -/
def defaultGrid : List (List Bool) :=
  List.replicate 5 (List.replicate 6 true)

/-- `np.array` accepts a nested list only when the rows have equal length. -/
def isRect (g : List (List Bool)) : Bool :=
  g.all (fun row => row.length == (g.headD []).length)

/-- Overwrite one cell of a grid, leaving everything else unchanged
(`self.availability[d, s] = v`). -/
def setCell (g : List (List Bool)) (d s : Nat) (b : Bool) : List (List Bool) :=
  g.set d ((g.getD d []).set s b)

/-- Number of `true` cells of a grid (`int(np.sum(self.availability))` on a
0/1 matrix). -/
def countTrue (g : List (List Bool)) : Nat :=
  (g.map (fun row => (row.filter id).length)).sum

/-- `RA.__init__`: take the supplied grid or the all-ones default, force the
Thursday (day 3) slots 2 and 3 to unavailable, and take the supplied cap or
the post-blackout availability count.  The numpy cell assignments fail with
an index error when the grid has fewer than 4 rows or fewer than 4 columns;
a ragged nested list is rejected by `np.array`.  No other validation is
performed. -/
def RA.make (name : String) (avail? : Option (List (List Bool)))
    (cap? : Option Int) : Except String RA :=
  if isRect (Option.getD avail? defaultGrid) = false then
    .error "ValueError: ragged availability grid"
  else if (Option.getD avail? defaultGrid).length < 4 then
    .error "IndexError: day index 3 out of bounds"
  else if ((Option.getD avail? defaultGrid).getD 3 []).length < 4 then
    .error "IndexError: slot index out of bounds"
  else
    .ok { name := name
          availability := setCell (setCell (Option.getD avail? defaultGrid) 3 2 false) 3 3 false
          max_slots_per_week := Option.getD cap?
            (countTrue (setCell (setCell (Option.getD avail? defaultGrid) 3 2 false) 3 3 false) : Int) }

/-- Per-resource counters tracked by the engine
(`self.ra_stats[name] = {'weekly': .., 'daily': .., 'slots': ..}`). -/
structure RAStats where
  weekly : Nat
  daily : List Nat
  slots : List (Nat × Nat)
  deriving Repr, DecidableEq

/-- The all-zero counters every resource starts with. -/
def RAStats.init : RAStats :=
  { weekly := 0, daily := [0, 0, 0, 0, 0], slots := [] }

/-- The engine state: the resource list, the schedule dictionary
(insertion-ordered association list from `(day, slot)` to assigned names),
and the per-name counters. -/
structure SchedState where
  ras : List RA
  schedule : List ((Nat × Nat) × List String)
  ra_stats : String → RAStats

/-- `GreedyScheduler.__init__`: empty schedule, all counters zero. -/
def initState (ras : List RA) : SchedState :=
  { ras := ras, schedule := [], ra_stats := fun _ => RAStats.init }

/-- Availability lookup `ra.availability[day, slot] == 1` (in-range for every
call the engine makes). -/
def availAt (ra : RA) (day slot : Nat) : Bool :=
  (ra.availability.getD day []).getD slot false

/-- `GreedyScheduler.can_assign`: availability, then the weekly cap, then the
hard daily cap of 2, short-circuiting on the first failing constraint. -/
def can_assign (st : SchedState) (ra : RA) (day slot : Nat) : Bool :=
  if availAt ra day slot ≠ true then false
  else if ((st.ra_stats ra.name).weekly : Int) ≥ ra.max_slots_per_week then false
  else if (st.ra_stats ra.name).daily.getD day 0 ≥ 2 then false
  else true

/-- Append a name under a key of the schedule dictionary: a missing key is
created at the end with a singleton list, an existing key gets the name
appended to its list. -/
def schedAppend (sched : List ((Nat × Nat) × List String)) (key : Nat × Nat)
    (nm : String) : List ((Nat × Nat) × List String) :=
  if key ∈ sched.map Prod.fst then
    sched.map (fun kv => if kv.1 = key then (kv.1, kv.2 ++ [nm]) else kv)
  else
    sched ++ [(key, [nm])]

/-- `GreedyScheduler.assign`: record the name under the slot key and bump the
weekly counter, the day's counter, and the assigned-slot list of that name. -/
def assign (st : SchedState) (ra : RA) (day slot : Nat) : SchedState :=
  { st with
    schedule := schedAppend st.schedule (day, slot) ra.name
    ra_stats := fun n =>
      if n = ra.name then
        { weekly := (st.ra_stats ra.name).weekly + 1
          daily := (st.ra_stats ra.name).daily.set day
            ((st.ra_stats ra.name).daily.getD day 0 + 1)
          slots := (st.ra_stats ra.name).slots ++ [(day, slot)] }
      else st.ra_stats n }

/-- `GreedyScheduler.get_available_ras`: the resources, in input order, that
currently pass `can_assign`. -/
def get_available_ras (st : SchedState) (day slot : Nat) : List RA :=
  st.ras.filter (fun ra => can_assign st ra day slot)

/-- A candidate slot record `(day, slot, criticality)`. -/
abbrev Cand : Type := Nat × Nat × ℚ

/-- Criticality of a slot: sum of reciprocal weekly caps over the given
eligible resources. -/
def criticality (el : List RA) : ℚ :=
  (el.map (fun ra => (1 : ℚ) / (ra.max_slots_per_week : ℚ))).sum

/-- Phase 1 of `schedule_greedy`: walk the grid day-major, and record every
cell with at least two currently eligible resources together with its
criticality. -/
def discover (st : SchedState) : List Cand :=
  (List.range 5).flatMap (fun day =>
    (List.range 6).filterMap (fun slot =>
      if (get_available_ras st day slot).length ≥ 2 then
        some (day, slot, criticality (get_available_ras st day slot))
      else
        none))

/-- One step of stable descending insertion sort on the criticality key. -/
def insertDesc (x : Cand) : List Cand → List Cand
  | [] => [x]
  | y :: ys => if y.2.2 > x.2.2 then y :: insertDesc x ys else x :: y :: ys

/-- Stable sort of the candidate list by criticality, descending: the model
of Python's stable `list.sort(key=.., reverse=True)`. -/
def sortDesc : List Cand → List Cand
  | [] => []
  | x :: xs => insertDesc x (sortDesc xs)

/-- Fallback resource for indexing a list whose length is already known to be
at least 2; never actually selected. -/
def dummyRA : RA :=
  { name := "", availability := [], max_slots_per_week := 0 }

/-- Phase 2 step of `schedule_greedy`: re-evaluate eligibility against the
live counters and assign the first two eligible resources, or skip the cell
when fewer than two remain. -/
def commitStep (st : SchedState) (c : Cand) : SchedState :=
  if (get_available_ras st c.1 c.2.1).length ≥ 2 then
    assign (assign st ((get_available_ras st c.1 c.2.1).getD 0 dummyRA) c.1 c.2.1)
      ((get_available_ras st c.1 c.2.1).getD 1 dummyRA) c.1 c.2.1
  else
    st

/-- `GreedyScheduler.schedule_greedy`: discover and score candidates against
the current state, stably sort them by criticality descending, then commit
them in order against the live state. -/
def schedule_greedy (st : SchedState) : SchedState :=
  (sortDesc (discover st)).foldl commitStep st

/-- Every state the phase-2 loop of `schedule_greedy` passes through, from
the state at entry to the final one. -/
def greedyTrace (st : SchedState) : List SchedState :=
  List.scanl commitStep st (sortDesc (discover st))

/-- The Thursday blackout cells `(3, 2)` and `(3, 3)` skipped by the
statistics loop. -/
def isBlackout (day slot : Nat) : Bool :=
  day == 3 && (slot == 2 || slot == 3)

/-- The 30 grid cells in the day-major order the statistics loop visits. -/
def allCells : List (Nat × Nat) :=
  (List.range 5).flatMap (fun day => (List.range 6).map (fun slot => (day, slot)))

/-- `sum(1 for ra in self.ras if ra.availability[day, slot] == 1)`. -/
def availableCount (ras : List RA) (day slot : Nat) : Nat :=
  (ras.filter (fun ra => availAt ra day slot)).length

/-- The impossible-cell count of `get_statistics`: non-blackout cells where
fewer than 2 resources are available on the stored grids. -/
def impossibleCount (ras : List RA) : Nat :=
  allCells.countP (fun c =>
    !(isBlackout c.1 c.2) && availableCount ras c.1 c.2 < 2)

/-- The figures `get_statistics` computes. -/
structure Stats where
  covered : Nat
  total_slots : Nat
  impossible : Nat
  theoretical_max : Nat
  efficiency : ℚ
  deriving Repr, DecidableEq

/-- `GreedyScheduler.get_statistics`: covered = number of schedule keys,
theoretical max = 28 minus the impossible cells, efficiency their ratio as a
percentage (0 when the theoretical maximum is 0). -/
def get_statistics (st : SchedState) : Stats :=
  { covered := st.schedule.length
    total_slots := 28
    impossible := impossibleCount st.ras
    theoretical_max := 28 - impossibleCount st.ras
    efficiency :=
      if 28 - impossibleCount st.ras > 0 then
        (st.schedule.length : ℚ) / ((28 - impossibleCount st.ras : Nat) : ℚ) * 100
      else 0 }

/-- Python's lexicographic order on `(day, slot)` tuples, strictly. -/
def pairLt (x y : Nat × Nat) : Bool :=
  x.1 < y.1 || (x.1 = y.1 && x.2 < y.2)

/-- One step of stable ascending insertion sort on `(day, slot)` pairs. -/
def insertPair (x : Nat × Nat) : List (Nat × Nat) → List (Nat × Nat)
  | [] => [x]
  | y :: ys => if pairLt y x then y :: insertPair x ys else x :: y :: ys

/-- `sorted(stats['slots'], key=lambda x: (x[0], x[1]))`: stable sort of the
assigned slots by day then slot. -/
def sortSlots : List (Nat × Nat) → List (Nat × Nat)
  | [] => []
  | x :: xs => insertPair x (sortSlots xs)

/-- The gap loop of `calculate_gaps`: over consecutive entries of the sorted
slot list sharing a day, add `slot − prev − 1` when positive. -/
def gapSum : List (Nat × Nat) → Nat
  | [] => 0
  | [_] => 0
  | (d1, s1) :: (d2, s2) :: rest =>
    (if d2 = d1 ∧ ((s2 : Int) - (s1 : Int) - 1) > 0
      then ((s2 : Int) - (s1 : Int) - 1).toNat else 0)
      + gapSum ((d2, s2) :: rest)

/-- `GreedyScheduler.calculate_gaps`: a name-keyed dictionary with, for every
resource that has at least one assigned slot, its gap count. -/
def calculate_gaps (st : SchedState) : List (String × Nat) :=
  st.ras.filterMap (fun ra =>
    if (st.ra_stats ra.name).slots.length = 0 then none
    else some (ra.name, gapSum (sortSlots (st.ra_stats ra.name).slots)))

/-! ### Specification-side definitions

The following definitions are written from the specification's words, to be
compared with the embedded code above. -/

/-- The cell of a candidate record. -/
def cellOf (c : Cand) : Nat × Nat :=
  (c.1, c.2.1)

/-- Spec: a resource is initially eligible for a cell when it is available
there and its weekly cap is positive (against all-zero counters the weekly
and daily constraints reduce to a positive cap). -/
def specEligible (ras : List RA) (day slot : Nat) : List RA :=
  ras.filter (fun ra => availAt ra day slot && decide (0 < ra.max_slots_per_week))

/-- Spec: criticality of a cell is the sum of reciprocal weekly caps of the
given eligible resources. -/
def specCriticality (el : List RA) : ℚ :=
  (el.map (fun ra => (ra.max_slots_per_week : ℚ)⁻¹)).sum

/-- Spec phase 1: walking the grid in day-ascending-then-slot-ascending
order, record each cell with at least two initially eligible resources,
scored once with its criticality. -/
def specDiscover (ras : List RA) : List Cand :=
  allCells.filterMap (fun c =>
    if 2 ≤ (specEligible ras c.1 c.2).length then
      some (c.1, c.2, specCriticality (specEligible ras c.1 c.2))
    else
      none)

/-- Spec: the live eligible list of a cell, i.e. the resources, in original
input order, that are available there and have spare weekly and daily
capacity under the current counters. -/
def specLive (st : SchedState) (day slot : Nat) : List RA :=
  st.ras.filter (fun ra =>
    availAt ra day slot
      && decide (((st.ra_stats ra.name).weekly : Int) < ra.max_slots_per_week)
      && decide ((st.ra_stats ra.name).daily.getD day 0 < 2))

/-- Spec phase 2 step: recompute eligibility against the live counters,
assign the first two resources of the live eligible list when its length is
still at least 2, and otherwise skip the cell entirely. -/
def specCommit (st : SchedState) (c : Cand) : SchedState :=
  if 2 ≤ (specLive st c.1 c.2.1).length then
    assign (assign st ((specLive st c.1 c.2.1).getD 0 dummyRA) c.1 c.2.1)
      ((specLive st c.1 c.2.1).getD 1 dummyRA) c.1 c.2.1
  else
    st

/-- The spec invariant on the engine counters: every resource's weekly count
is at most its weekly cap and every daily count is at most 2. -/
def countersOK (st : SchedState) : Prop :=
  ∀ ra ∈ st.ras,
    ((st.ra_stats ra.name).weekly : Int) ≤ ra.max_slots_per_week ∧
      ∀ d, (st.ra_stats ra.name).daily.getD d 0 ≤ 2

/-- A resource specification as the caller supplies it: a name, an optional
availability grid, and an optional weekly cap. -/
abbrev RASpec : Type :=
  String × Option (List (List Bool)) × Option Int

/-- Construct every resource of a specification list, propagating the first
construction failure. -/
def constructAll : List RASpec → Except String (List RA)
  | [] => .ok []
  | sp :: rest =>
    match RA.make sp.1 sp.2.1 sp.2.2, constructAll rest with
    | .ok r, .ok rs => .ok (r :: rs)
    | .error e, _ => .error e
    | .ok _, .error e => .error e

/-- Spec: the original (pre-blackout) availability of a resource
specification at a cell; a missing grid means the all-available default. -/
def origAvailAt (sp : RASpec) (day slot : Nat) : Bool :=
  ((Option.getD sp.2.1 defaultGrid).getD day []).getD slot false

/-- Spec: how many of the original caller-supplied grids are available at a
cell, ignoring the weekly and daily caps entirely. -/
def origAvailableCount (specs : List RASpec) (day slot : Nat) : Nat :=
  (specs.filter (fun sp => origAvailAt sp day slot)).length

/-- Spec: the theoretical maximum is 28 minus the number of non-blackout
cells where fewer than 2 resources are originally available. -/
def specTheoreticalMax (specs : List RASpec) : Nat :=
  28 - allCells.countP (fun c =>
    !(isBlackout c.1 c.2) && origAvailableCount specs c.1 c.2 < 2)

/-- Spec: coverage is the number of schedule keys holding at least 2
assigned identifiers. -/
def specCoverage (st : SchedState) : Nat :=
  (st.schedule.filter (fun kv => 2 ≤ kv.2.length)).length

/-- Python's lexicographic order on `(day, slot)` tuples, non-strictly. -/
def lexLe (x y : Nat × Nat) : Bool :=
  x.1 < y.1 || (x.1 = y.1 && x.2 ≤ y.2)

/-- Spec: the idle slots between one assignment and the next, summed over
the consecutive pairs of a slot list that share a day. -/
def pairGaps (l : List (Nat × Nat)) : Nat :=
  ((l.zip l.tail).map (fun pq =>
    if pq.1.1 = pq.2.1 ∧ pq.1.2 + 1 < pq.2.2 then pq.2.2 - pq.1.2 - 1 else 0)).sum

/-- Spec: a resource's gap count, from its slot list sorted by
`(day, slot)`. -/
def specGapCount (l : List (Nat × Nat)) : Nat :=
  pairGaps (l.mergeSort lexLe)

/-! ### Concrete inputs used to instantiate the theorems -/

/-- The all-available default grid after the Thursday blackout. -/
def blackoutDefaultGrid : List (List Bool) :=
  setCell (setCell defaultGrid 3 2 false) 3 3 false

/-- A resource available in every non-blackout slot with weekly cap 28. -/
def raFullA : RA :=
  { name := "A", availability := blackoutDefaultGrid, max_slots_per_week := 28 }

/-- A second resource available in every non-blackout slot with weekly cap
28. -/
def raFullB : RA :=
  { name := "B", availability := blackoutDefaultGrid, max_slots_per_week := 28 }

/-- A well-formed 6×7 all-available grid: not the documented 5×6 shape. -/
def grid6x7 : List (List Bool) :=
  List.replicate 6 (List.replicate 7 true)

/-- A state whose only resource holds assigned slots `(0, 1)` and `(0, 4)`:
the gap-analysis example. -/
def gapExampleState : SchedState :=
  { ras := [raFullA]
    schedule := [((0, 1), ["A", "B"]), ((0, 4), ["A", "B"])]
    ra_stats := fun n =>
      if n = "A" then { weekly := 2, daily := [2, 0, 0, 0, 0], slots := [(0, 1), (0, 4)] }
      else RAStats.init }

end Scheduler

namespace Scheduler

theorem daily_init_getD (d : Nat) : RAStats.init.daily.getD d 0 = 0 := by
  rcases d with _|_|_|_|_|d <;> simp [RAStats.init, List.getD]

theorem can_assign_eq (st : SchedState) (ra : RA) (day slot : Nat) :
    can_assign st ra day slot =
      (availAt ra day slot
        && decide (((st.ra_stats ra.name).weekly : Int) < ra.max_slots_per_week)
        && decide ((st.ra_stats ra.name).daily.getD day 0 < 2)) := by
  unfold can_assign
  by_cases h1 : availAt ra day slot = true
  · rw [if_neg (by simp [h1])]
    by_cases h2 : ((st.ra_stats ra.name).weekly : Int) ≥ ra.max_slots_per_week
    · rw [if_pos h2]
      simp [h1, not_lt.mpr h2]
    · rw [if_neg h2]
      by_cases h3 : (st.ra_stats ra.name).daily.getD day 0 ≥ 2
      · rw [if_pos h3]
        simp [h1, ← List.getD_eq_getElem?_getD, not_lt.mpr h3]
      · rw [if_neg h3]
        simp [h1, ← List.getD_eq_getElem?_getD, lt_of_not_ge h2, lt_of_not_ge h3]
  · have h1' : availAt ra day slot = false := by
      rcases h : availAt ra day slot
      · rfl
      · exact absurd h h1
    rw [if_pos (by simp [h1'])]
    simp [h1']

theorem can_assign_init (ras : List RA) (ra : RA) (day slot : Nat) :
    can_assign (initState ras) ra day slot =
      (availAt ra day slot && decide (0 < ra.max_slots_per_week)) := by
  rw [can_assign_eq]
  have h0 : ((initState ras).ra_stats ra.name) = RAStats.init := rfl
  rw [h0]
  have hw : ((RAStats.init.weekly : Nat) : Int) = 0 := rfl
  have hd : RAStats.init.daily.getD day 0 = 0 := daily_init_getD day
  rw [hw, hd]
  simp

theorem insertDesc_perm (x : Cand) (l : List Cand) : (insertDesc x l).Perm (x :: l) := by
  induction l with
  | nil => rfl
  | cons y ys ih =>
    rw [insertDesc]
    split
    · exact ((ih.cons y).trans (List.Perm.swap x y ys))
    · rfl

theorem sortDesc_perm (l : List Cand) : (sortDesc l).Perm l := by
  induction l with
  | nil => rfl
  | cons x xs ih =>
    rw [sortDesc]
    exact (insertDesc_perm x (sortDesc xs)).trans (ih.cons x)

theorem insertDesc_sorted (x : Cand) (l : List Cand)
    (h : l.Pairwise (fun a b => b.2.2 ≤ a.2.2)) :
    (insertDesc x l).Pairwise (fun a b => b.2.2 ≤ a.2.2) := by
  induction l with
  | nil => simp [insertDesc]
  | cons y ys ih =>
    rw [List.pairwise_cons] at h
    obtain ⟨hy, hys⟩ := h
    rw [insertDesc]
    split
    case isTrue hgt =>
      refine List.Pairwise.cons ?_ (ih hys)
      intro z hz
      have hz' := (insertDesc_perm x ys).mem_iff.mp hz
      rcases List.mem_cons.mp hz' with hz1 | hz1
      · subst hz1; exact le_of_lt hgt
      · exact hy z hz1
    case isFalse hle =>
      refine List.Pairwise.cons ?_ (List.Pairwise.cons hy hys)
      intro z hz
      rcases List.mem_cons.mp hz with hz1 | hz1
      · subst hz1; exact le_of_not_lt hle
      · exact le_trans (hy z hz1) (le_of_not_lt hle)

theorem sortDesc_sorted (l : List Cand) :
    (sortDesc l).Pairwise (fun a b => b.2.2 ≤ a.2.2) := by
  induction l with
  | nil => exact List.Pairwise.nil
  | cons x xs ih => exact insertDesc_sorted x (sortDesc xs) ih

theorem insertDesc_filter (x : Cand) (l : List Cand) (q : ℚ) :
    (insertDesc x l).filter (fun c => decide (c.2.2 = q)) =
      if x.2.2 = q then x :: l.filter (fun c => decide (c.2.2 = q))
      else l.filter (fun c => decide (c.2.2 = q)) := by
  induction l with
  | nil => rw [insertDesc]; split <;> simp_all
  | cons y ys ih =>
    rw [insertDesc]
    split
    case isTrue hgt =>
      by_cases hq : x.2.2 = q
      · have hyq : ¬ y.2.2 = q := by
          intro hy
          rw [← hq] at hy
          rw [hy] at hgt
          exact lt_irrefl _ hgt
        rw [if_pos hq]
        rw [List.filter_cons, ih, if_pos hq, List.filter_cons]
        simp [hyq]
      · rw [if_neg hq]
        rw [List.filter_cons, ih, if_neg hq, List.filter_cons]
    case isFalse hle =>
      by_cases hq : x.2.2 = q
      · rw [if_pos hq, List.filter_cons]
        simp [hq]
      · rw [if_neg hq, List.filter_cons]
        simp [hq]

theorem sortDesc_filter (l : List Cand) (q : ℚ) :
    (sortDesc l).filter (fun c => decide (c.2.2 = q)) =
      l.filter (fun c => decide (c.2.2 = q)) := by
  induction l with
  | nil => rfl
  | cons x xs ih =>
    rw [sortDesc, insertDesc_filter]
    by_cases hq : x.2.2 = q
    · rw [if_pos hq, ih, List.filter_cons]
      simp [hq]
    · rw [if_neg hq, ih, List.filter_cons]
      simp [hq]

end Scheduler

namespace Scheduler

theorem get_available_ras_init (ras : List RA) (day slot : Nat) :
    get_available_ras (initState ras) day slot = specEligible ras day slot := by
  unfold get_available_ras specEligible
  exact List.filter_congr (fun ra _ => can_assign_init ras ra day slot)

theorem criticality_eq_spec (el : List RA) : criticality el = specCriticality el := by
  unfold criticality specCriticality
  exact congrArg List.sum (List.map_congr_left (fun ra _ => one_div _))

theorem discover_eq_specDiscover (ras : List RA) :
    discover (initState ras) = specDiscover ras := by
  unfold discover specDiscover allCells
  rw [List.filterMap_flatMap]
  congr 1
  funext day
  rw [List.filterMap_map]
  congr 1
  funext slot
  show (if (get_available_ras (initState ras) day slot).length ≥ 2 then
      some (day, slot, criticality (get_available_ras (initState ras) day slot))
    else none) = _
  rw [get_available_ras_init, criticality_eq_spec]
  rfl

theorem mem_discover {st : SchedState} {c : Cand} (h : c ∈ discover st) :
    c.1 < 5 ∧ c.2.1 < 6 ∧ 2 ≤ (get_available_ras st c.1 c.2.1).length ∧
      c.2.2 = criticality (get_available_ras st c.1 c.2.1) := by
  unfold discover at h
  rw [List.mem_flatMap] at h
  obtain ⟨day, hday, h⟩ := h
  rw [List.mem_filterMap] at h
  obtain ⟨slot, hslot, h⟩ := h
  rw [List.mem_range] at hday
  rw [List.mem_range] at hslot
  have h2 : (if (get_available_ras st day slot).length ≥ 2 then
      some ((day, slot, criticality (get_available_ras st day slot)) : Cand)
    else none) = some c := h
  split at h2
  case isTrue hc =>
    rw [Option.some_inj] at h2
    subst h2
    exact ⟨hday, hslot, hc, rfl⟩
  case isFalse hc =>
    exact absurd h2 (by simp)

theorem discover_cells_nodup (st : SchedState) : ((discover st).map cellOf).Nodup := by
  unfold discover
  rw [List.map_flatMap]
  simp only [List.map_filterMap]
  have hval : ∀ day slot : Nat, ∀ b : Nat × Nat,
      Option.map cellOf (if (get_available_ras st day slot).length ≥ 2 then
          some ((day, slot, criticality (get_available_ras st day slot)) : Cand)
        else none) = some b → b = (day, slot) := by
    intro day slot b hb
    split at hb
    · simp only [Option.map_some'] at hb
      rw [Option.some_inj] at hb
      exact hb.symm
    · simp at hb
  rw [List.nodup_flatMap]
  constructor
  · intro day hday
    refine List.Nodup.filterMap ?_ (List.nodup_range 6)
    intro a a' b hb hb'
    rw [Option.mem_def] at hb hb'
    have h1 := hval day a b hb
    have h2 := hval day a' b hb'
    rw [h1] at h2
    exact (Prod.ext_iff.mp h2).2
  · have hpw : List.Pairwise (fun a b => a ≠ b) (List.range 5) := List.nodup_range 5
    refine hpw.imp ?_
    intro d d' hne x hx hx'
    rw [List.mem_filterMap] at hx hx'
    obtain ⟨s, hs0, hs⟩ := hx
    obtain ⟨s', hs0', hs'⟩ := hx'
    have h1 := hval d s x hs
    have h2 := hval d' s' x hs'
    rw [h1] at h2
    exact hne (Prod.ext_iff.mp h2).1

end Scheduler

namespace Scheduler

theorem assign_ras (st : SchedState) (ra : RA) (day slot : Nat) :
    (assign st ra day slot).ras = st.ras := rfl

theorem assign_schedule (st : SchedState) (ra : RA) (day slot : Nat) :
    (assign st ra day slot).schedule = schedAppend st.schedule (day, slot) ra.name := rfl

theorem assign_stats_ne (st : SchedState) (ra : RA) (day slot : Nat) {n : String}
    (h : n ≠ ra.name) : (assign st ra day slot).ra_stats n = st.ra_stats n := by
  unfold assign
  simp only
  rw [if_neg h]


theorem schedAppend_not_mem {sched : List ((Nat × Nat) × List String)} {key : Nat × Nat}
    (h : key ∉ sched.map Prod.fst) (nm : String) :
    schedAppend sched key nm = sched ++ [(key, [nm])] := by
  unfold schedAppend
  rw [if_neg h]

theorem schedAppend_last {sched : List ((Nat × Nat) × List String)} {key : Nat × Nat}
    (h : key ∉ sched.map Prod.fst) (l : List String) (nm : String) :
    schedAppend (sched ++ [(key, l)]) key nm = sched ++ [(key, l ++ [nm])] := by
  unfold schedAppend
  rw [if_pos (by rw [List.map_append]; exact List.mem_append_right _ (by simp))]
  rw [List.map_append]
  congr 1
  · refine (List.map_congr_left ?_).trans (List.map_id sched)
    intro kv hkv
    have : kv.1 ≠ key := by
      intro he
      exact h (he ▸ List.mem_map_of_mem Prod.fst hkv)
    simp [this]
  · simp

theorem commitStep_eq (st : SchedState) (c : Cand)
    (h : 2 ≤ (get_available_ras st c.1 c.2.1).length) :
    commitStep st c =
      assign (assign st ((get_available_ras st c.1 c.2.1).getD 0 dummyRA) c.1 c.2.1)
        ((get_available_ras st c.1 c.2.1).getD 1 dummyRA) c.1 c.2.1 := by
  unfold commitStep
  exact if_pos h

theorem commitStep_skip (st : SchedState) (c : Cand)
    (h : ¬ 2 ≤ (get_available_ras st c.1 c.2.1).length) :
    commitStep st c = st := by
  unfold commitStep
  exact if_neg h

theorem commitStep_ras (st : SchedState) (c : Cand) : (commitStep st c).ras = st.ras := by
  by_cases h : 2 ≤ (get_available_ras st c.1 c.2.1).length
  · rw [commitStep_eq st c h]
    rfl
  · rw [commitStep_skip st c h]

theorem foldl_commit_ras (l : List Cand) (st : SchedState) :
    (l.foldl commitStep st).ras = st.ras := by
  induction l generalizing st with
  | nil => rfl
  | cons c cs ih => rw [List.foldl_cons, ih, commitStep_ras]

theorem commitStep_schedule (st : SchedState) (c : Cand)
    (hfresh : (c.1, c.2.1) ∉ st.schedule.map Prod.fst) :
    commitStep st c = st ∨
      ∃ n0 n1 : String,
        (commitStep st c).schedule = st.schedule ++ [((c.1, c.2.1), [n0, n1])] := by
  by_cases h : 2 ≤ (get_available_ras st c.1 c.2.1).length
  · right
    refine ⟨((get_available_ras st c.1 c.2.1).getD 0 dummyRA).name,
      ((get_available_ras st c.1 c.2.1).getD 1 dummyRA).name, ?_⟩
    rw [commitStep_eq st c h]
    rw [assign_schedule, assign_schedule]
    rw [schedAppend_not_mem hfresh]
    rw [schedAppend_last hfresh]
    simp
  · exact .inl (commitStep_skip st c h)

theorem foldl_schedule_invariant (l : List Cand) (st : SchedState)
    (hnd : (l.map cellOf).Nodup)
    (hfresh : ∀ kv ∈ st.schedule, kv.1 ∉ l.map cellOf)
    (hlen : ∀ kv ∈ st.schedule, kv.2.length = 2)
    (hkeys : (st.schedule.map Prod.fst).Nodup) :
    (∀ kv ∈ (l.foldl commitStep st).schedule, kv.2.length = 2) ∧
      ((l.foldl commitStep st).schedule.map Prod.fst).Nodup ∧
      (∀ kv ∈ (l.foldl commitStep st).schedule,
        kv.1 ∈ st.schedule.map Prod.fst ∨ kv.1 ∈ l.map cellOf) := by
  induction l generalizing st with
  | nil =>
    exact ⟨hlen, hkeys, fun kv h => .inl (List.mem_map_of_mem _ h)⟩
  | cons c cs ih =>
    rw [List.map_cons] at hnd
    rw [List.nodup_cons] at hnd
    obtain ⟨hc_not_cs, hnd_cs⟩ := hnd
    have hfresh_c : (c.1, c.2.1) ∉ st.schedule.map Prod.fst := by
      intro hmem
      rw [List.mem_map] at hmem
      obtain ⟨kv, hkv, hkey⟩ := hmem
      exact hfresh kv hkv (hkey ▸ List.mem_cons_self _ _)
    rw [List.foldl_cons]
    rcases commitStep_schedule st c hfresh_c with heq | ⟨n0, n1, hsch⟩
    · rw [heq]
      have := ih st hnd_cs
        (fun kv hkv => fun hmem => hfresh kv hkv (List.mem_cons_of_mem _ hmem))
        hlen hkeys
      exact ⟨this.1, this.2.1, fun kv hkv => (this.2.2 kv hkv).imp_right
        (fun hm => List.mem_cons_of_mem _ hm)⟩
    · have hfresh' : ∀ kv ∈ (commitStep st c).schedule, kv.1 ∉ cs.map cellOf := by
        intro kv hkv
        rw [hsch] at hkv
        rcases List.mem_append.mp hkv with hkv | hkv
        · exact fun hm => hfresh kv hkv (List.mem_cons_of_mem _ hm)
        · rw [List.mem_singleton] at hkv
          subst hkv
          exact hc_not_cs
      have hlen' : ∀ kv ∈ (commitStep st c).schedule, kv.2.length = 2 := by
        intro kv hkv
        rw [hsch] at hkv
        rcases List.mem_append.mp hkv with hkv | hkv
        · exact hlen kv hkv
        · rw [List.mem_singleton] at hkv
          subst hkv
          rfl
      have hkeys' : ((commitStep st c).schedule.map Prod.fst).Nodup := by
        rw [hsch, List.map_append, List.nodup_append]
        exact ⟨hkeys, by simp, by
          intro a ha
          simp only [List.map_cons, List.map_nil, List.mem_singleton] at *
          intro hb
          rw [hb] at ha
          exact hfresh_c ha⟩
      have := ih (commitStep st c) hnd_cs hfresh' hlen' hkeys'
      refine ⟨this.1, this.2.1, ?_⟩
      intro kv hkv
      rcases this.2.2 kv hkv with hm | hm
      · rw [hsch, List.map_append] at hm
        rcases List.mem_append.mp hm with hm | hm
        · exact .inl hm
        · simp only [List.map_cons, List.map_nil, List.mem_singleton] at hm
          exact .inr (hm ▸ List.mem_cons_self _ _)
      · exact .inr (List.mem_cons_of_mem _ hm)

end Scheduler

namespace Scheduler

theorem specLive_eq (st : SchedState) (day slot : Nat) :
    specLive st day slot = get_available_ras st day slot := by
  unfold specLive get_available_ras
  exact List.filter_congr (fun ra _ => (can_assign_eq st ra day slot).symm)

theorem specCommit_eq : specCommit = commitStep := by
  funext st c
  unfold specCommit commitStep
  rw [specLive_eq]

theorem names_nodup_eq {ras : List RA} (hnd : (ras.map RA.name).Nodup)
    {ra ra' : RA} (h : ra ∈ ras) (h' : ra' ∈ ras) (hname : ra.name = ra'.name) :
    ra = ra' :=
  List.inj_on_of_nodup_map hnd h h' hname

theorem can_assign_true {st : SchedState} {ra : RA} {day slot : Nat}
    (h : can_assign st ra day slot = true) :
    availAt ra day slot = true ∧
      ((st.ra_stats ra.name).weekly : Int) < ra.max_slots_per_week ∧
      (st.ra_stats ra.name).daily.getD day 0 < 2 := by
  rw [can_assign_eq] at h
  simp only [Bool.and_eq_true, decide_eq_true_eq] at h
  exact ⟨h.1.1, h.1.2, h.2⟩

theorem assign_stats_self (st : SchedState) (ra : RA) (day slot : Nat) :
    (assign st ra day slot).ra_stats ra.name =
      { weekly := (st.ra_stats ra.name).weekly + 1
        daily := (st.ra_stats ra.name).daily.set day
          ((st.ra_stats ra.name).daily.getD day 0 + 1)
        slots := (st.ra_stats ra.name).slots ++ [(day, slot)] } := by
  unfold assign
  simp

theorem getD_set_nat (l : List Nat) (i j x : Nat) :
    (l.set i x).getD j 0 = if i = j ∧ i < l.length then x else l.getD j 0 := by
  rw [List.getD_eq_getElem?_getD, List.getD_eq_getElem?_getD, List.getElem?_set]
  by_cases hij : i = j
  · subst hij
    by_cases hlen : i < l.length
    · simp [hlen]
    · simp [hlen, List.getElem?_eq_none (Nat.le_of_not_lt hlen)]
  · simp [hij]

theorem getD_mem {α : Type} {l : List α} {i : Nat} (h : i < l.length) (d : α) :
    l.getD i d ∈ l := by
  rw [List.getD_eq_getElem?_getD, List.getElem?_eq_getElem h]
  exact List.getElem_mem h

theorem countersOK_assign {st : SchedState} {ra : RA} {day slot : Nat}
    (hnd : (st.ras.map RA.name).Nodup)
    (hra : ra ∈ st.ras)
    (hcan : can_assign st ra day slot = true)
    (hok : countersOK st) : countersOK (assign st ra day slot) := by
  obtain ⟨hav, hw, hd⟩ := can_assign_true hcan
  intro ra' hra'
  rw [assign_ras] at hra'
  by_cases hname : ra'.name = ra.name
  · have heq : ra' = ra := names_nodup_eq hnd hra' hra hname
    subst heq
    rw [assign_stats_self]
    constructor
    · simp only
      push_cast
      omega
    · intro d
      simp only
      rw [getD_set_nat]
      split
      · omega
      · exact (hok ra' hra').2 d
  · rw [assign_stats_ne st ra day slot hname]
    exact hok ra' hra'

theorem can_assign_assign_ne {st : SchedState} {ra : RA} {day slot : Nat}
    (ra' : RA) (d' s' : Nat) (hname : ra'.name ≠ ra.name) :
    can_assign (assign st ra day slot) ra' d' s' = can_assign st ra' d' s' := by
  rw [can_assign_eq, can_assign_eq, assign_stats_ne st ra day slot hname]

theorem countersOK_commit {st : SchedState} {c : Cand}
    (hnd : (st.ras.map RA.name).Nodup) (hok : countersOK st) :
    countersOK (commitStep st c) := by
  by_cases h : 2 ≤ (get_available_ras st c.1 c.2.1).length
  · rw [commitStep_eq st c h]
    have hras_nd : st.ras.Nodup := List.Nodup.of_map RA.name hnd
    have hav_nd : (get_available_ras st c.1 c.2.1).Nodup := List.Nodup.filter _ hras_nd
    have h0 : (get_available_ras st c.1 c.2.1).getD 0 dummyRA ∈
        get_available_ras st c.1 c.2.1 := getD_mem (by omega) dummyRA
    have h1 : (get_available_ras st c.1 c.2.1).getD 1 dummyRA ∈
        get_available_ras st c.1 c.2.1 := getD_mem (by omega) dummyRA
    have hne : (get_available_ras st c.1 c.2.1).getD 0 dummyRA ≠
        (get_available_ras st c.1 c.2.1).getD 1 dummyRA := by
      have hgl0 : (0 : Nat) < (get_available_ras st c.1 c.2.1).length := by omega
      have hgl1 : (1 : Nat) < (get_available_ras st c.1 c.2.1).length := by omega
      rw [List.getD_eq_getElem?_getD, List.getD_eq_getElem?_getD,
        List.getElem?_eq_getElem hgl0, List.getElem?_eq_getElem hgl1]
      simp only [Option.getD_some]
      intro heq
      have := (List.Nodup.getElem_inj_iff hav_nd).mp heq
      omega
    have hmem0 := List.mem_filter.mp h0
    have hmem1 := List.mem_filter.mp h1
    have hnames : ((get_available_ras st c.1 c.2.1).getD 1 dummyRA).name ≠
        ((get_available_ras st c.1 c.2.1).getD 0 dummyRA).name := by
      intro he
      exact hne (names_nodup_eq hnd hmem1.1 hmem0.1 he).symm
    have hok1 : countersOK (assign st ((get_available_ras st c.1 c.2.1).getD 0 dummyRA)
        c.1 c.2.1) := countersOK_assign hnd hmem0.1 hmem0.2 hok
    have hcan1 : can_assign (assign st ((get_available_ras st c.1 c.2.1).getD 0 dummyRA)
          c.1 c.2.1) ((get_available_ras st c.1 c.2.1).getD 1 dummyRA) c.1 c.2.1 = true := by
      rw [can_assign_assign_ne _ _ _ hnames]
      exact hmem1.2
    exact countersOK_assign (by rw [assign_ras]; exact hnd)
      (by rw [assign_ras]; exact hmem1.1) hcan1 hok1
  · rw [commitStep_skip st c h]
    exact hok
end Scheduler

namespace Scheduler

theorem lexLe_trans (a b c : Nat × Nat) (h1 : lexLe a b = true) (h2 : lexLe b c = true) :
    lexLe a c = true := by
  unfold lexLe at h1 h2 ⊢
  simp only [Bool.or_eq_true, decide_eq_true_eq, Bool.and_eq_true] at h1 h2 ⊢
  omega

theorem lexLe_total (a b : Nat × Nat) : (lexLe a b || lexLe b a) = true := by
  unfold lexLe
  simp only [Bool.or_eq_true, decide_eq_true_eq, Bool.and_eq_true]
  omega

theorem lexLe_antisymm {a b : Nat × Nat} (h1 : lexLe a b = true) (h2 : lexLe b a = true) :
    a = b := by
  unfold lexLe at h1 h2
  simp only [Bool.or_eq_true, decide_eq_true_eq, Bool.and_eq_true] at h1 h2
  have h3 : a.1 = b.1 ∧ a.2 = b.2 := by omega
  exact Prod.ext h3.1 h3.2

theorem pairLt_le {a b : Nat × Nat} (h : pairLt a b = true) : lexLe a b = true := by
  unfold pairLt at h
  unfold lexLe
  simp only [Bool.or_eq_true, decide_eq_true_eq, Bool.and_eq_true] at h ⊢
  omega

theorem pairLt_not {a b : Nat × Nat} (h : pairLt a b = false) : lexLe b a = true := by
  unfold pairLt at h
  unfold lexLe
  simp only [Bool.or_eq_false_iff, Bool.and_eq_false_iff, decide_eq_false_iff_not,
    Bool.or_eq_true, decide_eq_true_eq, Bool.and_eq_true] at h ⊢
  omega

theorem insertPair_perm (x : Nat × Nat) (l : List (Nat × Nat)) :
    (insertPair x l).Perm (x :: l) := by
  induction l with
  | nil => rfl
  | cons y ys ih =>
    rw [insertPair]
    split
    · exact ((ih.cons y).trans (List.Perm.swap x y ys))
    · rfl

theorem sortSlots_perm (l : List (Nat × Nat)) : (sortSlots l).Perm l := by
  induction l with
  | nil => rfl
  | cons x xs ih =>
    rw [sortSlots]
    exact (insertPair_perm x (sortSlots xs)).trans (ih.cons x)

theorem insertPair_sorted (x : Nat × Nat) (l : List (Nat × Nat))
    (h : l.Pairwise (fun a b => lexLe a b = true)) :
    (insertPair x l).Pairwise (fun a b => lexLe a b = true) := by
  induction l with
  | nil => simp [insertPair]
  | cons y ys ih =>
    rw [List.pairwise_cons] at h
    obtain ⟨hy, hys⟩ := h
    rw [insertPair]
    split
    case isTrue hlt =>
      refine List.Pairwise.cons ?_ (ih hys)
      intro z hz
      have hz' := (insertPair_perm x ys).mem_iff.mp hz
      rcases List.mem_cons.mp hz' with hz1 | hz1
      · subst hz1
        exact pairLt_le hlt
      · exact hy z hz1
    case isFalse hnlt =>
      have hxy : lexLe x y = true := pairLt_not (Bool.not_eq_true _ ▸ hnlt)
      refine List.Pairwise.cons ?_ (List.Pairwise.cons hy hys)
      intro z hz
      rcases List.mem_cons.mp hz with hz1 | hz1
      · subst hz1
        exact hxy
      · exact lexLe_trans x y z hxy (hy z hz1)

theorem sortSlots_sorted (l : List (Nat × Nat)) :
    (sortSlots l).Pairwise (fun a b => lexLe a b = true) := by
  induction l with
  | nil => exact List.Pairwise.nil
  | cons x xs ih => exact insertPair_sorted x (sortSlots xs) ih

theorem sortSlots_eq_mergeSort (l : List (Nat × Nat)) :
    sortSlots l = l.mergeSort lexLe := by
  refine @List.eq_of_perm_of_sorted _ (fun a b => lexLe a b = true)
    ⟨fun a b h1 h2 => lexLe_antisymm h1 h2⟩ _ _ ?_ ?_ ?_
  · exact (sortSlots_perm l).trans (List.mergeSort_perm l lexLe).symm
  · exact sortSlots_sorted l
  · exact List.sorted_mergeSort lexLe_trans lexLe_total l

theorem gapSum_eq_pairGaps (l : List (Nat × Nat)) : gapSum l = pairGaps l := by
  induction l with
  | nil => rfl
  | cons a l ih =>
    cases l with
    | nil => rfl
    | cons b m =>
      obtain ⟨d1, s1⟩ := a
      obtain ⟨d2, s2⟩ := b
      rw [gapSum, ih]
      unfold pairGaps
      rw [show ((d1, s1) :: (d2, s2) :: m).tail = (d2, s2) :: m from rfl,
        show ((d2, s2) :: m).tail = m from rfl,
        List.zip_cons_cons, List.map_cons, List.sum_cons]
      congr 1
      dsimp only
      by_cases hc : d2 = d1 ∧ ((s2 : Int) - (s1 : Int) - 1) > 0
      · rw [if_pos hc, if_pos (by omega)]
        omega
      · rw [if_neg hc, if_neg (by omega)]

theorem lookup_gaps_aux (stats : String → RAStats) (l : List RA) (ra : RA)
    (hra : ra ∈ l) (hne : (stats ra.name).slots ≠ []) :
    (l.filterMap (fun r =>
      if (stats r.name).slots.length = 0 then none
      else some (r.name, gapSum (sortSlots (stats r.name).slots)))).lookup ra.name =
      some (gapSum (sortSlots (stats ra.name).slots)) := by
  induction l with
  | nil => cases hra
  | cons r rest ih =>
    rw [List.filterMap_cons]
    rcases List.mem_cons.mp hra with heq | hmem
    · subst heq
      rw [if_neg (by simpa using hne)]
      simp [List.lookup]
    · by_cases hz : (stats r.name).slots.length = 0
      · rw [if_pos hz]
        exact ih hmem
      · rw [if_neg hz]
        by_cases hn : ra.name = r.name
        · rw [hn]
          simp [List.lookup]
        · simp only [List.lookup]
          rw [show (ra.name == r.name) = false from beq_eq_false_iff_ne.mpr hn]
          exact ih hmem

theorem calculate_gaps_lookup (st : SchedState) (ra : RA) (hra : ra ∈ st.ras)
    (hne : (st.ra_stats ra.name).slots ≠ []) :
    (calculate_gaps st).lookup ra.name =
      some (gapSum (sortSlots (st.ra_stats ra.name).slots)) := by
  unfold calculate_gaps
  exact lookup_gaps_aux st.ra_stats st.ras ra hra hne

end Scheduler

namespace Scheduler

theorem make_ok {name : String} {avail? : Option (List (List Bool))} {cap? : Option Int}
    {r : RA} (h : RA.make name avail? cap? = .ok r) :
    isRect (Option.getD avail? defaultGrid) = true ∧
      4 ≤ (Option.getD avail? defaultGrid).length ∧
      4 ≤ ((Option.getD avail? defaultGrid).getD 3 []).length ∧
      r.name = name ∧
      r.availability = setCell (setCell (Option.getD avail? defaultGrid) 3 2 false) 3 3 false ∧
      r.max_slots_per_week = Option.getD cap? (countTrue r.availability : Int) := by
  unfold RA.make at h
  split at h
  case isTrue => exact absurd h (by simp)
  case isFalse h1 =>
    split at h
    case isTrue => exact absurd h (by simp)
    case isFalse h2 =>
      split at h
      case isTrue => exact absurd h (by simp)
      case isFalse h3 =>
        rw [Except.ok.injEq] at h
        subst h
        refine ⟨?_, by omega, by omega, rfl, rfl, rfl⟩
        rcases hr : isRect (Option.getD avail? defaultGrid)
        · exact absurd hr h1
        · rfl

theorem make_isOk (name : String) (avail? : Option (List (List Bool))) (cap? : Option Int) :
    (RA.make name avail? cap?).isOk =
      (isRect (Option.getD avail? defaultGrid)
        && decide (4 ≤ (Option.getD avail? defaultGrid).length)
        && decide (4 ≤ ((Option.getD avail? defaultGrid).getD 3 []).length)) := by
  unfold RA.make
  by_cases h1 : isRect (Option.getD avail? defaultGrid) = false
  · rw [if_pos h1, h1]
    rfl
  · rw [if_neg h1]
    rw [Bool.not_eq_false] at h1
    rw [h1]
    by_cases h2 : (Option.getD avail? defaultGrid).length < 4
    · rw [if_pos h2]
      have : ¬ 4 ≤ (Option.getD avail? defaultGrid).length := by omega
      simp [Except.isOk, Except.toBool, this]
    · rw [if_neg h2]
      have h2' : 4 ≤ (Option.getD avail? defaultGrid).length := by omega
      by_cases h3 : ((Option.getD avail? defaultGrid).getD 3 []).length < 4
      · rw [if_pos h3]
        have : ¬ 4 ≤ ((Option.getD avail? defaultGrid).getD 3 []).length := by omega
        simp [Except.isOk, Except.toBool, h2', this, ← List.getD_eq_getElem?_getD]
      · rw [if_neg h3]
        have h3' : 4 ≤ ((Option.getD avail? defaultGrid).getD 3 []).length := by omega
        simp [Except.isOk, Except.toBool, h2', h3', ← List.getD_eq_getElem?_getD]


end Scheduler

namespace Scheduler

theorem double_setCell (g : List (List Bool)) (hlen : 3 < g.length) :
    setCell (setCell g 3 2 false) 3 3 false =
      g.set 3 (((g.getD 3 []).set 2 false).set 3 false) := by
  unfold setCell
  rw [List.getD_eq_getElem?_getD (g.set 3 ((g.getD 3 []).set 2 false))]
  rw [List.getElem?_set]
  rw [if_pos rfl, if_pos hlen]
  simp only [Option.getD_some]
  rw [List.set_set]

theorem make_avail_blackout {name : String} {avail? : Option (List (List Bool))}
    {cap? : Option Int} {r : RA} (h : RA.make name avail? cap? = .ok r) :
    availAt r 3 2 = false ∧ availAt r 3 3 = false := by
  obtain ⟨-, hlen, hrow, -, hav, -⟩ := make_ok h
  have hrl : 2 < ((Option.getD avail? defaultGrid).getD 3 []).length := by omega
  have hrl3 : 3 < ((Option.getD avail? defaultGrid).getD 3 []).length := by omega
  unfold availAt
  rw [hav, double_setCell _ (by omega)]
  rw [List.getD_eq_getElem?_getD (List.set _ _ _) 3, List.getElem?_set, if_pos rfl,
    if_pos (by omega)]
  simp only [Option.getD_some]
  constructor
  · rw [List.getD_eq_getElem?_getD, List.getElem?_set_ne (by omega), List.getElem?_set,
      if_pos rfl, if_pos (by omega)]
    rfl
  · rw [List.getD_eq_getElem?_getD, List.getElem?_set, if_pos rfl,
      if_pos (by rw [List.length_set]; omega)]
    rfl

theorem make_avail_nonblackout {name : String} {avail? : Option (List (List Bool))}
    {cap? : Option Int} {r : RA} (h : RA.make name avail? cap? = .ok r)
    {day slot : Nat} (hnb : isBlackout day slot = false) :
    availAt r day slot = ((Option.getD avail? defaultGrid).getD day []).getD slot false := by
  obtain ⟨-, hlen, hrow, -, hav, -⟩ := make_ok h
  unfold availAt
  rw [hav, double_setCell _ (by omega)]
  by_cases hd : day = 3
  · subst hd
    have hs : slot ≠ 2 ∧ slot ≠ 3 := by
      unfold isBlackout at hnb
      simp only [beq_self_eq_true, Bool.true_and, Bool.or_eq_false_iff] at hnb
      exact ⟨by simpa using hnb.1, by simpa using hnb.2⟩
    rw [List.getD_eq_getElem?_getD (List.set _ _ _) 3, List.getElem?_set, if_pos rfl,
      if_pos (by omega)]
    simp only [Option.getD_some]
    rw [List.getD_eq_getElem?_getD, List.getElem?_set_ne (fun he => hs.2 he.symm),
      List.getElem?_set_ne (fun he => hs.1 he.symm)]
    rw [← List.getD_eq_getElem?_getD]
  · rw [List.getD_eq_getElem?_getD (List.set _ _ _) day, List.getElem?_set_ne (fun he => hd he.symm)]
    rw [← List.getD_eq_getElem?_getD]

theorem constructAll_availCount {specs : List RASpec} {ras : List RA}
    (h : constructAll specs = .ok ras) {day slot : Nat} (hnb : isBlackout day slot = false) :
    availableCount ras day slot = origAvailableCount specs day slot := by
  induction specs generalizing ras with
  | nil =>
    rw [constructAll, Except.ok.injEq] at h
    subst h
    rfl
  | cons sp rest ih =>
    rw [constructAll] at h
    split at h
    case h_2 e heq => exact absurd h (by simp)
    case h_3 e heq1 heq2 => exact absurd h (by simp)
    case h_1 r rs hmk hrest =>
      rw [Except.ok.injEq] at h
      subst h
      unfold availableCount origAvailableCount
      rw [List.filter_cons, List.filter_cons]
      have hhead : availAt r day slot = origAvailAt sp day slot := by
        rw [make_avail_nonblackout hmk hnb]
        rfl
      rw [hhead]
      have htail := ih hrest
      unfold availableCount origAvailableCount at htail
      rcases horig : origAvailAt sp day slot <;> simp [horig, htail]

theorem schedule_greedy_ras (ras : List RA) :
    (schedule_greedy (initState ras)).ras = ras := by
  unfold schedule_greedy
  rw [foldl_commit_ras]
  rfl

theorem schedule_all_len2 (ras : List RA) :
    (∀ kv ∈ (schedule_greedy (initState ras)).schedule, kv.2.length = 2) ∧
      ((schedule_greedy (initState ras)).schedule.map Prod.fst).Nodup ∧
      (∀ kv ∈ (schedule_greedy (initState ras)).schedule,
        kv.1 ∈ (sortDesc (discover (initState ras))).map cellOf) := by
  have hnd : ((sortDesc (discover (initState ras))).map cellOf).Nodup := by
    refine (List.Perm.nodup_iff ?_).mpr (discover_cells_nodup (initState ras))
    exact (sortDesc_perm _).map cellOf
  have h := foldl_schedule_invariant (sortDesc (discover (initState ras))) (initState ras)
    hnd (by intro kv hkv; cases hkv) (by intro kv hkv; cases hkv) List.nodup_nil
  unfold schedule_greedy
  refine ⟨h.1, h.2.1, fun kv hkv => ?_⟩
  rcases h.2.2 kv hkv with hm | hm
  · cases hm
  · exact hm

end Scheduler

attribute [local semireducible] Rat.add Rat.mul Rat.sub Rat.inv

set_option maxRecDepth 10000

namespace Scheduler

theorem self_mem_greedyTrace (st : SchedState) : st ∈ greedyTrace st := by
  unfold greedyTrace
  cases h : sortDesc (discover st) <;> rw [List.scanl] <;> exact List.mem_cons_self _ _

theorem scanl_countersOK (l : List Cand) (st : SchedState)
    (hnd : (st.ras.map RA.name).Nodup) (hok : countersOK st) :
    ∀ st' ∈ List.scanl commitStep st l, countersOK st' := by
  induction l generalizing st with
  | nil =>
    intro st' hst'
    rw [List.scanl] at hst'
    rcases List.mem_singleton.mp hst' with h
    subst h
    exact hok
  | cons c cs ih =>
    intro st' hst'
    rw [List.scanl] at hst'
    rcases List.mem_cons.mp hst' with h | h
    · subst h
      exact hok
    · exact ih (commitStep st c) (by rw [commitStep_ras]; exact hnd)
        (countersOK_commit hnd hok) st' h

/-- C7: `can_assign` holds exactly when the three hard constraints hold, in the
order availability, weekly cap, daily cap, with boolean short-circuit; it is a
pure function of the engine state and mutates nothing. -/
theorem C7_can_assign_spec (st : SchedState) (ra : RA) (day slot : Nat) :
    can_assign st ra day slot =
      (availAt ra day slot
        && decide (((st.ra_stats ra.name).weekly : Int) < ra.max_slots_per_week)
        && decide ((st.ra_stats ra.name).daily.getD day 0 < 2))
    ∧ (can_assign st ra day slot = true ↔
        availAt ra day slot = true ∧
          ((st.ra_stats ra.name).weekly : Int) < ra.max_slots_per_week ∧
          (st.ra_stats ra.name).daily.getD day 0 < 2) :=
  ⟨can_assign_eq st ra day slot, by
    rw [can_assign_eq]
    simp [and_assoc]⟩

/-- C6: a successfully constructed resource always has the Thursday slot-2 and
slot-3 cells unavailable, whatever the caller supplied, and its weekly cap is
the caller's cap when one was given and otherwise the number of available
cells of the post-blackout grid. -/
theorem C6_blackout_and_cap (name : String) (avail? : Option (List (List Bool)))
    (cap? : Option Int) (r : RA) (h : RA.make name avail? cap? = .ok r) :
    availAt r 3 2 = false ∧ availAt r 3 3 = false ∧
      r.max_slots_per_week = Option.getD cap? (countTrue r.availability : Int) :=
  ⟨(make_avail_blackout h).1, (make_avail_blackout h).2, (make_ok h).2.2.2.2.2⟩

/-- Witness for C6: the default grid with no cap yields the blacked-out grid
and cap 28. -/
theorem C6_blackout_and_cap_witness :
    availAt raFullA 3 2 = false ∧ availAt raFullA 3 3 = false ∧
      raFullA.max_slots_per_week = Option.getD none (countTrue raFullA.availability : Int) :=
  C6_blackout_and_cap "A" none none raFullA (by rfl)

/-- C5 counterexample: the constructor does not validate its inputs — a
non-positive weekly cap is accepted and stored, and a well-formed grid that is
not 5×6 (here 6×7) is accepted as well. -/
theorem C5_construction_cex :
    RA.make "A" none (some (-1)) =
      .ok { name := "A", availability := blackoutDefaultGrid, max_slots_per_week := -1 } ∧
    (RA.make "B" (some grid6x7) none).isOk = true := by
  constructor
  · rfl
  · rfl

/-- C5 amended: constructing a resource fails exactly when the supplied grid is
ragged or too small for the Thursday blackout cells (fewer than 4 rows or fewer
than 4 columns); a non-positive cap is silently accepted, as is any larger
grid, and the default grid always succeeds. -/
theorem C5_construction_amended :
    (∀ name : String, ∀ g : List (List Bool), ∀ cap? : Option Int,
      (RA.make name (some g) cap?).isOk =
        (isRect g && decide (4 ≤ g.length) && decide (4 ≤ (g.getD 3 []).length))) ∧
    (∀ name : String, ∀ cap? : Option Int, (RA.make name none cap?).isOk = true) := by
  constructor
  · intro name g cap?
    exact make_isOk name (some g) cap?
  · intro name cap?
    rw [make_isOk]
    rfl

/-- C10: every resource that is initially eligible for a cell has a weekly cap
of at least 1, so the summand 1/weeklyCap of the criticality sum never divides
by zero. -/
theorem C10_criticality_cap_positive (ras : List RA) (day slot : Nat) (ra : RA)
    (h : ra ∈ get_available_ras (initState ras) day slot) :
    1 ≤ ra.max_slots_per_week ∧ ((ra.max_slots_per_week : ℚ) ≠ 0) := by
  rw [get_available_ras, List.mem_filter] at h
  have hb := h.2
  rw [can_assign_init] at hb
  simp only [Bool.and_eq_true, decide_eq_true_eq] at hb
  have hpos : 0 < ra.max_slots_per_week := hb.2
  refine ⟨hpos, ?_⟩
  intro h0
  rw [Int.cast_eq_zero] at h0
  omega

/-- Witness for C10 at a concrete two-resource engine. -/
theorem C10_criticality_cap_positive_witness :
    1 ≤ raFullA.max_slots_per_week ∧ ((raFullA.max_slots_per_week : ℚ) ≠ 0) :=
  C10_criticality_cap_positive [raFullA, raFullB] 0 0 raFullA (by decide)

/-- C3: after `schedule_greedy` on a freshly constructed engine, every key of
the schedule maps to exactly 2 identifiers — never 1 and never more than 2. -/
theorem C3_pairs_exactly_two (ras : List RA) (kv : (Nat × Nat) × List String)
    (h : kv ∈ (schedule_greedy (initState ras)).schedule) : kv.2.length = 2 :=
  (schedule_all_len2 ras).1 kv h

/-- Witness for C3: a concrete run in which the slot (0, 0) is covered. -/
theorem C3_pairs_exactly_two_witness :
    (((0, 0), ["A", "B"]) : (Nat × Nat) × List String).2.length = 2 :=
  C3_pairs_exactly_two [raFullA, raFullB] ((0, 0), ["A", "B"]) (by decide)

/-- C4: for resources with distinct names and non-negative weekly caps, every
state of the phase-2 loop of `schedule_greedy` keeps every weekly counter at
most the weekly cap and every daily counter at most 2 (each assignment happens
only after `can_assign` and increments the counters by exactly one). -/
theorem C4_counters_bounded (ras : List RA)
    (hnd : (ras.map RA.name).Nodup)
    (hcaps : ∀ ra ∈ ras, 0 ≤ ra.max_slots_per_week) :
    ∀ st' ∈ greedyTrace (initState ras), countersOK st' := by
  have hinit : countersOK (initState ras) := by
    intro ra hra
    refine ⟨hcaps ra hra, ?_⟩
    intro d
    show RAStats.init.daily.getD d 0 ≤ 2
    rw [daily_init_getD]
    omega
  exact scanl_countersOK _ _ hnd hinit

/-- Witness for C4 at a concrete two-resource engine, at the entry state of
the loop. -/
theorem C4_counters_bounded_witness :
    (((initState [raFullA, raFullB]).ra_stats raFullA.name).weekly : Int) ≤
      raFullA.max_slots_per_week :=
  (C4_counters_bounded [raFullA, raFullB] (by decide) (by decide)
    (initState [raFullA, raFullB]) (self_mem_greedyTrace _) raFullA (by decide)).1

end Scheduler

namespace Scheduler

/-- C1 counterexample: on two resources available in every non-blackout slot
with weekly cap 28 each, `schedule_greedy` does not reach coverage 28 and
efficiency 100: the hard daily cap of 2 sessions per resource per day limits a
two-resource engine to 2 covered slots per day. -/
theorem C1_scenarioB_cex :
    ¬ ((get_statistics (schedule_greedy (initState [raFullA, raFullB]))).covered = 28 ∧
       (get_statistics (schedule_greedy (initState [raFullA, raFullB]))).efficiency = 100) :=
  fun hc => absurd hc.1 (by decide)

/-- C1 amended: with two resources available in every non-blackout slot and
weekly cap 28 each, `schedule_greedy` covers the first two slots of each of
the 5 days, so coverage is 10 of the theoretical 28 and efficiency is
10/28 × 100 = 250/7 ≈ 35.7%. -/
theorem C1_scenarioB_amended :
    (get_statistics (schedule_greedy (initState [raFullA, raFullB]))).covered = 10 ∧
    (get_statistics (schedule_greedy (initState [raFullA, raFullB]))).theoretical_max = 28 ∧
    (get_statistics (schedule_greedy (initState [raFullA, raFullB]))).efficiency = 250 / 7 ∧
    (schedule_greedy (initState [raFullA, raFullB])).schedule.map Prod.fst =
      [(0, 0), (0, 1), (1, 0), (1, 1), (2, 0), (2, 1), (3, 0), (3, 1), (4, 0), (4, 1)] := by
  refine ⟨by decide, by decide, by decide, by decide⟩

/-- C2: on a fresh engine `schedule_greedy` is exactly the two-phase
algorithm: phase 1 records, in day-then-slot order, exactly the cells with at
least two initially eligible resources, scored once with the sum of reciprocal
caps of those resources; the candidates are stably sorted by criticality
descending (a permutation, sorted, preserving the relative order of equal
scores); phase 2 walks that order re-checking live eligibility and assigning
the first two live-eligible resources, skipping otherwise; and a cell with
fewer than two initially eligible resources is never assigned in the whole
run. -/
theorem C2_two_phase (ras : List RA) :
    discover (initState ras) = specDiscover ras ∧
    (sortDesc (discover (initState ras))).Perm (discover (initState ras)) ∧
    (sortDesc (discover (initState ras))).Pairwise (fun a b => b.2.2 ≤ a.2.2) ∧
    (∀ q : ℚ, (sortDesc (discover (initState ras))).filter (fun c => decide (c.2.2 = q)) =
      (discover (initState ras)).filter (fun c => decide (c.2.2 = q))) ∧
    schedule_greedy (initState ras) =
      (sortDesc (discover (initState ras))).foldl specCommit (initState ras) ∧
    (∀ day slot : Nat, (get_available_ras (initState ras) day slot).length < 2 →
      (day, slot) ∉ (schedule_greedy (initState ras)).schedule.map Prod.fst) := by
  refine ⟨discover_eq_specDiscover ras, sortDesc_perm _, sortDesc_sorted _,
    fun q => sortDesc_filter _ q, ?_, ?_⟩
  · rw [specCommit_eq]
    rfl
  · intro day slot hlt hmem
    rw [List.mem_map] at hmem
    obtain ⟨kv, hkv, hkey⟩ := hmem
    have h3 := (schedule_all_len2 ras).2.2 kv hkv
    rw [hkey] at h3
    have h4 : (day, slot) ∈ (discover (initState ras)).map cellOf :=
      ((sortDesc_perm _).map cellOf).mem_iff.mp h3
    rw [List.mem_map] at h4
    obtain ⟨c, hc, hcell⟩ := h4
    have h5 := mem_discover hc
    have hday : c.1 = day := congrArg Prod.fst hcell
    have hslot : c.2.1 = slot := congrArg Prod.snd hcell
    rw [hday, hslot] at h5
    have := h5.2.2.1
    omega

/-- Witness for C2 at a one-resource engine: no cell has two eligible
resources, and the never-assigned clause applies to cell (0, 0). -/
theorem C2_two_phase_witness :
    discover (initState [raFullA]) = specDiscover [raFullA] ∧
    (0, 0) ∉ (schedule_greedy (initState [raFullA])).schedule.map Prod.fst :=
  ⟨(C2_two_phase [raFullA]).1, (C2_two_phase [raFullA]).2.2.2.2.2 0 0 (by decide)⟩

/-- C9: the gap dictionary holds, for every resource with at least one
assigned slot, exactly the spec's formula: slots sorted by (day, slot), and
each consecutive same-day pair contributing its positive idle-slot count; the
engine's stable slot sort agrees with the canonical merge sort on the
lexicographic order. -/
theorem C9_gap_count_spec (st : SchedState) (ra : RA) (hra : ra ∈ st.ras)
    (hne : (st.ra_stats ra.name).slots ≠ []) :
    (calculate_gaps st).lookup ra.name = some (specGapCount (st.ra_stats ra.name).slots) ∧
    sortSlots (st.ra_stats ra.name).slots = (st.ra_stats ra.name).slots.mergeSort lexLe := by
  refine ⟨?_, sortSlots_eq_mergeSort _⟩
  rw [calculate_gaps_lookup st ra hra hne]
  unfold specGapCount
  rw [← sortSlots_eq_mergeSort, gapSum_eq_pairGaps]

/-- Witness for C9: a resource assigned (0, 1) and (0, 4) gets gap count 2. -/
theorem C9_gap_count_spec_witness :
    (calculate_gaps gapExampleState).lookup "A" = some 2 := by
  have h := C9_gap_count_spec gapExampleState raFullA (by decide) (by decide)
  obtain ⟨h1, h2⟩ := h
  show (calculate_gaps gapExampleState).lookup raFullA.name = some 2
  rw [h1]
  unfold specGapCount
  rw [← h2]
  decide

end Scheduler

namespace Scheduler

/-- C8: after planning on a fresh engine built from the given specifications,
the schedule's keys are distinct, the reported coverage equals the number of
keys holding at least two identifiers, the theoretical maximum is 28 minus the
non-blackout cells where fewer than two resources are available on the
original caller-supplied grids (caps ignored), and the efficiency is
coverage / theoretical maximum × 100, or 0 when the maximum is 0. -/
theorem C8_statistics_spec (specs : List RASpec) (ras : List RA)
    (h : constructAll specs = .ok ras) :
    ((schedule_greedy (initState ras)).schedule.map Prod.fst).Nodup ∧
    (get_statistics (schedule_greedy (initState ras))).covered =
      specCoverage (schedule_greedy (initState ras)) ∧
    (get_statistics (schedule_greedy (initState ras))).theoretical_max =
      specTheoreticalMax specs ∧
    (get_statistics (schedule_greedy (initState ras))).efficiency =
      (if 0 < specTheoreticalMax specs then
        (specCoverage (schedule_greedy (initState ras)) : ℚ) /
          (specTheoreticalMax specs : ℚ) * 100
      else 0) := by
  have hcov : specCoverage (schedule_greedy (initState ras)) =
      (schedule_greedy (initState ras)).schedule.length := by
    unfold specCoverage
    rw [List.filter_eq_self.mpr]
    intro kv hkv
    have h2 := (schedule_all_len2 ras).1 kv hkv
    simp [h2]
  have himp : impossibleCount (schedule_greedy (initState ras)).ras =
      allCells.countP (fun c =>
        !(isBlackout c.1 c.2) && decide (origAvailableCount specs c.1 c.2 < 2)) := by
    rw [schedule_greedy_ras]
    unfold impossibleCount
    refine List.countP_congr ?_
    intro c _
    rcases hb : isBlackout c.1 c.2
    · rw [constructAll_availCount h hb]
    · simp [hb]
  have htm : (get_statistics (schedule_greedy (initState ras))).theoretical_max =
      specTheoreticalMax specs := by
    show 28 - impossibleCount (schedule_greedy (initState ras)).ras = _
    rw [himp]
    rfl
  refine ⟨(schedule_all_len2 ras).2.1, ?_, htm, ?_⟩
  · show (schedule_greedy (initState ras)).schedule.length = _
    rw [hcov]
  · show (if 28 - impossibleCount (schedule_greedy (initState ras)).ras > 0 then
        ((schedule_greedy (initState ras)).schedule.length : ℚ) /
          ((28 - impossibleCount (schedule_greedy (initState ras)).ras : Nat) : ℚ) * 100
      else 0) = _
    rw [hcov]
    have h28 : specTheoreticalMax specs =
        28 - impossibleCount (schedule_greedy (initState ras)).ras := by
      rw [himp]
      rfl
    rw [h28]

/-- Witness for C8 at the concrete two-resource scenario. -/
theorem C8_statistics_spec_witness :
    (get_statistics (schedule_greedy (initState [raFullA, raFullB]))).theoretical_max =
      specTheoreticalMax [("A", none, some 28), ("B", none, some 28)] ∧
    (get_statistics (schedule_greedy (initState [raFullA, raFullB]))).covered =
      specCoverage (schedule_greedy (initState [raFullA, raFullB])) :=
  ⟨(C8_statistics_spec [("A", none, some 28), ("B", none, some 28)] [raFullA, raFullB]
      (by rfl)).2.2.1,
   (C8_statistics_spec [("A", none, some 28), ("B", none, some 28)] [raFullA, raFullB]
      (by rfl)).2.1⟩

end Scheduler
